import Mathlib

/-!
Verification of the phone-picker repository's recommendation builder and
platform-balanced selector.

The embedding follows the TypeScript source:
* `buildRecommendations`, `daysSince` — `app/api/recommendations/route.ts`
  (src/unnamed/part_000, lines 59-83);
* `readTotal`, `isPolicy`, `pickByPlatform` — `app/page.tsx`
  (src/app/page.tsx, lines 295-340).

Modelling choices:
* JS strings are Lean `String`s; `toLowerCase` is `String.toLower` (the
  strings involved are ASCII, where both agree).
* A popularity record's `share` is a JS number that is only ever used via
  string interpolation in `why`; it is embedded as the `String` that JS
  number-to-string rendering produces (e.g. `10.0` renders as "10").
* The optional `pixelCurrentGen` field is an `Option String`; the source
  guard `if (a.pixelCurrentGen)` is JS truthiness, which is false for both
  `undefined` and the empty string, and is embedded accordingly.
* `Date.now()` and `Date.parse(iso)` both yield integer millisecond
  timestamps; `daysSince` is embedded as a function of the two integers.
* `Math.floor` on a quotient of integers is `Int.fdiv`.
* The `while` loop of `pickByPlatform` is embedded as `fillLoopF`, a
  fuel-indexed recursion; each iteration consumes at least one queue
  element, so fuel `iosQ.length + andQ.length` (used by `fillLoop`) is
  always sufficient.
-/

inductive Platform where
  | ios
  | android
deriving DecidableEq, Repr

structure Recommendation where
  platform : Platform
  model : String
  why : String
deriving DecidableEq, Repr

/-- An iPhone popularity record; `share` holds the JS rendering of the
share number, since the source only ever interpolates it into a string. -/
structure IPhoneModel where
  model : String
  share : String
deriving DecidableEq, Repr

structure Anchors where
  latestStandardIphone : String
  latestStandardGalaxy : String
  iphoneMaxPrevYear : String
  galaxyUltraPrevYear : String
  pixelPrevGen : String
  pixelCurrentGen : Option String
  updatedAt : String
deriving DecidableEq, Repr

/-- `daysSince` from route.ts line 59-61:
`Math.max(0, Math.floor((Date.now() - Date.parse(iso)) / 86_400_000))`,
with `now` and `parsedIso` the two integer millisecond timestamps. -/
def daysSince (now parsedIso : Int) : Int :=
  max 0 ((now - parsedIso).fdiv 86400000)

/-- The `why` string of a data-derived entry (route.ts line 78). -/
def popularWhy (m : IPhoneModel) : String :=
  "Popular iPhone in US (~" ++ m.share ++ "%)"

/-- The data-derived entry pushed for a popularity record (route.ts line 78). -/
def popularRec (m : IPhoneModel) : Recommendation :=
  ⟨Platform.ios, m.model, popularWhy m⟩

/-- The anchor-derived head of `buildRecommendations` (route.ts lines 64-73):
the five fixed policy entries, then the optional `pixelCurrentGen` entry,
which the source pushes only when the field is truthy (set and non-empty). -/
def buildBase (a : Anchors) : List Recommendation :=
  [⟨Platform.ios, a.latestStandardIphone, "Policy: latest standard iPhone"⟩,
   ⟨Platform.android, a.latestStandardGalaxy, "Policy: latest standard Galaxy S"⟩,
   ⟨Platform.ios, a.iphoneMaxPrevYear, "Policy: last year\x27s iPhone Pro/Pro Max"⟩,
   ⟨Platform.android, a.galaxyUltraPrevYear, "Policy: last year\x27s Samsung Galaxy S Ultra"⟩,
   ⟨Platform.android, a.pixelPrevGen, "Policy: previous-generation Google Pixel"⟩] ++
  (match a.pixelCurrentGen with
   | some p =>
       if p = "" then []
       else [⟨Platform.android, p, "Broaden Android coverage (stock Android)"⟩]
   | none => [])

/-- The dedup loop of `buildRecommendations` (route.ts lines 75-81): walk the
popularity records, appending `popularRec m` and recording the model in the
seen set whenever the model has not been seen. -/
def addPopular : List Recommendation → List String → List IPhoneModel → List Recommendation
  | base, _, [] => base
  | base, seen, m :: rest =>
      if m.model ∈ seen then addPopular base seen rest
      else addPopular (base ++ [popularRec m]) (m.model :: seen) rest

/-- `buildRecommendations` from route.ts lines 63-83. -/
def buildRecommendations (a : Anchors) (iphone : List IPhoneModel) : List Recommendation :=
  addPopular (buildBase a) ((buildBase a).map (fun r => r.model)) iphone

/-- `readTotal` from page.tsx lines 295-301. The input models the JS value
`Number(v)`: `none` stands for a non-finite result (`NaN` from an absent or
unparsable parameter, or an infinity), `some q` for a finite double, every
one of which is an exact rational, so that `Int.floor q` is `Math.floor(n)`. -/
def readTotal (totalParam : Option ℚ) : Int :=
  match totalParam with
  | none => 8
  | some q => max 8 (min 10 ⌊q⌋)

/-- JS `toLowerCase`, character-wise; the strings involved are ASCII, on
which JS and `Char.toLower` agree. -/
def jsToLower (s : String) : String :=
  ⟨s.data.map Char.toLower⟩

/-- JS `startsWith`: the characters of `pre` are a prefix of those of `s`. -/
def jsStartsWith (s pre : String) : Bool :=
  pre.data.isPrefixOf s.data

/-- `isPolicy` from page.tsx lines 303-305:
`rec.why.toLowerCase().startsWith("policy")`. -/
def isPolicy (r : Recommendation) : Bool :=
  jsStartsWith (jsToLower r.why) "policy"

/-- `r.platform === "iOS"` (page.tsx line 313). -/
def isIos (r : Recommendation) : Bool :=
  match r.platform with
  | Platform.ios => true
  | Platform.android => false

/-- `r.platform === "Android"` (page.tsx line 314). -/
def isAndroid (r : Recommendation) : Bool :=
  match r.platform with
  | Platform.ios => false
  | Platform.android => true

/-- `iosAll` (page.tsx line 313). -/
def iosOf (recs : List Recommendation) : List Recommendation :=
  recs.filter isIos

/-- `androidAll` (page.tsx line 314). -/
def androidOf (recs : List Recommendation) : List Recommendation :=
  recs.filter isAndroid

/-- The policy-first reordering applied to one platform's pool
(page.tsx lines 316-317). -/
def policyFirst (l : List Recommendation) : List Recommendation :=
  l.filter (fun r => isPolicy r) ++ l.filter (fun r => !isPolicy r)

/-- `iosQueue` (page.tsx line 316). -/
def iosQueueOf (recs : List Recommendation) : List Recommendation :=
  policyFirst (iosOf recs)

/-- `androidQueue` (page.tsx line 317). -/
def androidQueueOf (recs : List Recommendation) : List Recommendation :=
  policyFirst (androidOf recs)

/-- `iosTarget` after the extra-slot adjustment (page.tsx lines 320-325);
`extra = total - (iosBase + androidBase)` is only tested with `> 0` and
`> 1`, on which natural truncated subtraction agrees with JS arithmetic. -/
def iosTargetOf (total iosBase androidBase : Nat) : Nat :=
  if 0 < total - (iosBase + androidBase) then iosBase + 1 else iosBase

/-- `androidTarget` after the extra-slot adjustment (page.tsx lines 321-326). -/
def androidTargetOf (total iosBase androidBase : Nat) : Nat :=
  if 1 < total - (iosBase + androidBase) then androidBase + 1 else androidBase

/-- One execution of the `while` fill loop of page.tsx lines 333-337, fuel
indexed. Body: shift from `iosQ` if non-empty, break once `total` is
reached, then shift from `andQ` if non-empty, and re-test the condition. -/
def fillLoopF (total : Nat) : Nat → List Recommendation → List Recommendation → List Recommendation → List Recommendation
  | 0, selected, _, _ => selected
  | Nat.succ fuel, selected, iosQ, andQ =>
      if selected.length < total then
        match iosQ with
        | i :: iosRest =>
            if total ≤ (selected ++ [i]).length then selected ++ [i]
            else
              match andQ with
              | a :: andRest => fillLoopF total fuel ((selected ++ [i]) ++ [a]) iosRest andRest
              | [] => fillLoopF total fuel (selected ++ [i]) iosRest []
        | [] =>
            match andQ with
            | a :: andRest => fillLoopF total fuel (selected ++ [a]) [] andRest
            | [] => selected
      else selected

/-- The fill loop with its always-sufficient fuel. -/
def fillLoop (total : Nat) (selected iosQ andQ : List Recommendation) : List Recommendation :=
  fillLoopF total (iosQ.length + andQ.length) selected iosQ andQ

structure PickResult where
  selected : List Recommendation
  iosCount : Nat
  androidCount : Nat
deriving DecidableEq, Repr

/-- `pickByPlatform` from page.tsx lines 307-340: take the per-platform
targets off the front of the policy-first queues (`splice`), then run the
alternating fill loop on what remains; `iosCount`/`androidCount` report the
lengths of the two base selections only. -/
def pickByPlatform (recs : List Recommendation) (total iosBase androidBase : Nat) : PickResult :=
  let iosSel := (iosQueueOf recs).take (iosTargetOf total iosBase androidBase)
  let andSel := (androidQueueOf recs).take (androidTargetOf total iosBase androidBase)
  { selected :=
      fillLoop total (iosSel ++ andSel)
        ((iosQueueOf recs).drop (iosTargetOf total iosBase androidBase))
        ((androidQueueOf recs).drop (androidTargetOf total iosBase androidBase)),
    iosCount := iosSel.length,
    androidCount := andSel.length }

/-- The anchors of the spec's worked example (also the static `ANCHORS`
of route.ts lines 48-56). -/
def exAnchors : Anchors :=
  { latestStandardIphone := "iPhone 16",
    latestStandardGalaxy := "Galaxy S25",
    iphoneMaxPrevYear := "iPhone 15 Pro Max",
    galaxyUltraPrevYear := "Galaxy S24 Ultra",
    pixelPrevGen := "Pixel 8",
    pixelCurrentGen := some "Pixel 9",
    updatedAt := "2025-08-15T00:00:00.000Z" }

/-- The popularity records of the spec's worked example (route.ts lines
29-36); the shares are the JS renderings of 16.03, 10.2 and 10.0. -/
def exModels : List IPhoneModel :=
  [⟨"iPhone 13", "16.03"⟩, ⟨"iPhone 15", "10.2"⟩, ⟨"iPhone 15 Pro", "10"⟩]

/-- The nine entries the worked example expects from `build`. -/
def exBuilt : List Recommendation :=
  [⟨Platform.ios, "iPhone 16", "Policy: latest standard iPhone"⟩,
   ⟨Platform.android, "Galaxy S25", "Policy: latest standard Galaxy S"⟩,
   ⟨Platform.ios, "iPhone 15 Pro Max", "Policy: last year\x27s iPhone Pro/Pro Max"⟩,
   ⟨Platform.android, "Galaxy S24 Ultra", "Policy: last year\x27s Samsung Galaxy S Ultra"⟩,
   ⟨Platform.android, "Pixel 8", "Policy: previous-generation Google Pixel"⟩,
   ⟨Platform.android, "Pixel 9", "Broaden Android coverage (stock Android)"⟩,
   ⟨Platform.ios, "iPhone 13", "Popular iPhone in US (~16.03%)"⟩,
   ⟨Platform.ios, "iPhone 15", "Popular iPhone in US (~10.2%)"⟩,
   ⟨Platform.ios, "iPhone 15 Pro", "Popular iPhone in US (~10%)"⟩]

/-! ### Helper lemmas about the fill loop and the queues -/

lemma length_filter_add (p : Recommendation → Bool) (l : List Recommendation) :
    (l.filter p).length + (l.filter (fun a => !p a)).length = l.length := by
  induction l with
  | nil => simp
  | cons a l ih =>
      by_cases h : p a <;> simp [List.filter_cons, h] <;> omega

lemma policyFirst_length (l : List Recommendation) :
    (policyFirst l).length = l.length := by
  simpa [policyFirst] using length_filter_add (fun r => isPolicy r) l

lemma isAndroid_eq_not_isIos (r : Recommendation) : isAndroid r = !isIos r := by
  rcases r with ⟨p, m, w⟩
  cases p <;> rfl

lemma iosOf_length_add_androidOf_length (recs : List Recommendation) :
    (iosOf recs).length + (androidOf recs).length = recs.length := by
  have h : androidOf recs = recs.filter (fun r => !isIos r) := by
    simp only [androidOf]
    exact List.filter_congr (fun r _ => isAndroid_eq_not_isIos r)
  rw [iosOf, h]
  exact length_filter_add isIos recs

lemma fillLoopF_noop (total fuel : Nat) (sel iosQ andQ : List Recommendation)
    (h : total ≤ sel.length) : fillLoopF total fuel sel iosQ andQ = sel := by
  cases fuel with
  | zero => rfl
  | succ fuel => simp [fillLoopF, Nat.not_lt.mpr h]

lemma fillLoopF_length (total : Nat) (fuel : Nat) :
    ∀ sel iosQ andQ : List Recommendation, iosQ.length + andQ.length ≤ fuel →
      sel.length ≤ total →
      (fillLoopF total fuel sel iosQ andQ).length =
        min total (sel.length + (iosQ.length + andQ.length)) := by
  induction fuel with
  | zero =>
      intro sel iosQ andQ hfuel hsel
      have hi : iosQ = [] := List.eq_nil_of_length_eq_zero (by omega)
      have ha : andQ = [] := List.eq_nil_of_length_eq_zero (by omega)
      subst hi; subst ha
      simp [fillLoopF]
      omega
  | succ fuel ih =>
      intro sel iosQ andQ hfuel hsel
      by_cases hlt : sel.length < total
      · cases iosQ with
        | cons i iosRest =>
            by_cases hge : total ≤ (sel ++ [i]).length
            · simp only [fillLoopF, if_pos hlt, if_pos hge]
              simp only [List.length_append, List.length_cons, List.length_nil,
                List.length_singleton] at hge ⊢
              omega
            · cases andQ with
              | cons a andRest =>
                  have hrec := ih ((sel ++ [i]) ++ [a]) iosRest andRest
                    (by simp only [List.length_cons] at hfuel ⊢; omega)
                    (by simp only [List.length_append, List.length_singleton] at hge ⊢; omega)
                  simp only [fillLoopF, if_pos hlt, if_neg hge]
                  rw [hrec]
                  simp only [List.length_append, List.length_cons, List.length_nil,
                    List.length_singleton]
                  omega
              | nil =>
                  have hrec := ih (sel ++ [i]) iosRest []
                    (by simp only [List.length_cons, List.length_nil] at hfuel ⊢; omega)
                    (by simp only [List.length_append, List.length_singleton] at hge ⊢; omega)
                  simp only [fillLoopF, if_pos hlt, if_neg hge]
                  rw [hrec]
                  simp only [List.length_append, List.length_cons, List.length_nil,
                    List.length_singleton]
                  omega
        | nil =>
            cases andQ with
            | cons a andRest =>
                have hrec := ih (sel ++ [a]) [] andRest
                  (by simp only [List.length_cons, List.length_nil] at hfuel ⊢; omega)
                  (by simp only [List.length_append, List.length_singleton]; omega)
                simp only [fillLoopF, if_pos hlt]
                rw [hrec]
                simp only [List.length_append, List.length_cons, List.length_nil,
                  List.length_singleton]
                omega
            | nil =>
                simp only [fillLoopF, if_pos hlt, List.length_nil]
                omega
      · simp only [fillLoopF, if_neg hlt]
        omega

lemma fillLoopF_extend (total : Nat) (fuel : Nat) :
    ∀ sel iosQ andQ : List Recommendation,
      ∃ ext, fillLoopF total fuel sel iosQ andQ = sel ++ ext := by
  induction fuel with
  | zero => intro sel iosQ andQ; exact ⟨[], by simp [fillLoopF]⟩
  | succ fuel ih =>
      intro sel iosQ andQ
      by_cases hlt : sel.length < total
      · cases iosQ with
        | cons i iosRest =>
            by_cases hge : total ≤ (sel ++ [i]).length
            · exact ⟨[i], by simp only [fillLoopF, if_pos hlt, if_pos hge]⟩
            · cases andQ with
              | cons a andRest =>
                  obtain ⟨ext, hext⟩ := ih ((sel ++ [i]) ++ [a]) iosRest andRest
                  refine ⟨[i] ++ [a] ++ ext, ?_⟩
                  simp only [fillLoopF, if_pos hlt, if_neg hge]
                  rw [hext]
                  simp
              | nil =>
                  obtain ⟨ext, hext⟩ := ih (sel ++ [i]) iosRest []
                  refine ⟨[i] ++ ext, ?_⟩
                  simp only [fillLoopF, if_pos hlt, if_neg hge]
                  rw [hext]
                  simp
        | nil =>
            cases andQ with
            | cons a andRest =>
                obtain ⟨ext, hext⟩ := ih (sel ++ [a]) [] andRest
                refine ⟨[a] ++ ext, ?_⟩
                simp only [fillLoopF, if_pos hlt]
                rw [hext]
                simp
            | nil => exact ⟨[], by simp [fillLoopF, if_pos hlt]⟩
      · exact ⟨[], by simp [fillLoopF, if_neg hlt]⟩

lemma fillLoopF_mem (total : Nat) (fuel : Nat) :
    ∀ sel iosQ andQ : List Recommendation, ∀ r,
      r ∈ fillLoopF total fuel sel iosQ andQ → r ∈ sel ∨ r ∈ iosQ ∨ r ∈ andQ := by
  induction fuel with
  | zero => intro sel iosQ andQ r hr; exact Or.inl (by simpa [fillLoopF] using hr)
  | succ fuel ih =>
      intro sel iosQ andQ r hr
      by_cases hlt : sel.length < total
      · cases iosQ with
        | cons i iosRest =>
            by_cases hge : total ≤ (sel ++ [i]).length
            · simp only [fillLoopF, if_pos hlt, if_pos hge] at hr
              rcases List.mem_append.mp hr with h | h
              · exact Or.inl h
              · exact Or.inr (Or.inl (by simp [List.mem_singleton.mp h]))
            · cases andQ with
              | cons a andRest =>
                  simp only [fillLoopF, if_pos hlt, if_neg hge] at hr
                  rcases ih ((sel ++ [i]) ++ [a]) iosRest andRest r hr with h | h | h
                  · rcases List.mem_append.mp h with h2 | h2
                    · rcases List.mem_append.mp h2 with h3 | h3
                      · exact Or.inl h3
                      · exact Or.inr (Or.inl (by simp [List.mem_singleton.mp h3]))
                    · exact Or.inr (Or.inr (by simp [List.mem_singleton.mp h2]))
                  · exact Or.inr (Or.inl (List.mem_cons_of_mem _ h))
                  · exact Or.inr (Or.inr (List.mem_cons_of_mem _ h))
              | nil =>
                  simp only [fillLoopF, if_pos hlt, if_neg hge] at hr
                  rcases ih (sel ++ [i]) iosRest [] r hr with h | h | h
                  · rcases List.mem_append.mp h with h2 | h2
                    · exact Or.inl h2
                    · exact Or.inr (Or.inl (by simp [List.mem_singleton.mp h2]))
                  · exact Or.inr (Or.inl (List.mem_cons_of_mem _ h))
                  · exact absurd h (List.not_mem_nil r)
        | nil =>
            cases andQ with
            | cons a andRest =>
                simp only [fillLoopF, if_pos hlt] at hr
                rcases ih (sel ++ [a]) [] andRest r hr with h | h | h
                · rcases List.mem_append.mp h with h2 | h2
                  · exact Or.inl h2
                  · exact Or.inr (Or.inr (by simp [List.mem_singleton.mp h2]))
                · exact absurd h (List.not_mem_nil r)
                · exact Or.inr (Or.inr (List.mem_cons_of_mem _ h))
            | nil =>
                simp only [fillLoopF, if_pos hlt] at hr
                exact Or.inl hr
      · simp only [fillLoopF, if_neg hlt] at hr
        exact Or.inl hr

lemma fillLoopF_filter_pos (total fuel : Nat) (p : Recommendation → Bool) :
    ∀ sel iosQ andQ : List Recommendation,
      (∀ r ∈ iosQ, p r = true) → (∀ r ∈ andQ, p r = false) →
      ∃ n, (fillLoopF total fuel sel iosQ andQ).filter p =
        sel.filter p ++ iosQ.take n := by
  induction fuel with
  | zero => intro sel iosQ andQ _ _; exact ⟨0, by simp [fillLoopF]⟩
  | succ fuel ih =>
      intro sel iosQ andQ hi ha
      by_cases hlt : sel.length < total
      · cases iosQ with
        | cons i iosRest =>
            have hpi : p i = true := hi i (by simp)
            by_cases hge : total ≤ (sel ++ [i]).length
            · refine ⟨1, ?_⟩
              simp only [fillLoopF, if_pos hlt, if_pos hge]
              simp [List.filter_append, List.filter_cons, hpi]
            · cases andQ with
              | cons a andRest =>
                  have hpa : p a = false := ha a (by simp)
                  obtain ⟨n, hn⟩ := ih ((sel ++ [i]) ++ [a]) iosRest andRest
                    (fun r hr => hi r (by simp [hr])) (fun r hr => ha r (by simp [hr]))
                  refine ⟨n + 1, ?_⟩
                  simp only [fillLoopF, if_pos hlt, if_neg hge]
                  rw [hn]
                  simp [List.filter_append, List.filter_cons, hpi, hpa, List.take_succ_cons]
              | nil =>
                  obtain ⟨n, hn⟩ := ih (sel ++ [i]) iosRest []
                    (fun r hr => hi r (by simp [hr])) (fun r hr => absurd hr (List.not_mem_nil r))
                  refine ⟨n + 1, ?_⟩
                  simp only [fillLoopF, if_pos hlt, if_neg hge]
                  rw [hn]
                  simp [List.filter_append, List.filter_cons, hpi, List.take_succ_cons]
        | nil =>
            cases andQ with
            | cons a andRest =>
                have hpa : p a = false := ha a (by simp)
                obtain ⟨n, hn⟩ := ih (sel ++ [a]) [] andRest
                  (fun r hr => absurd hr (List.not_mem_nil r))
                  (fun r hr => ha r (by simp [hr]))
                refine ⟨0, ?_⟩
                simp only [fillLoopF, if_pos hlt]
                rw [hn]
                simp [List.filter_append, List.filter_cons, hpa]
            | nil => exact ⟨0, by simp [fillLoopF, if_pos hlt]⟩
      · exact ⟨0, by simp [fillLoopF, if_neg hlt]⟩

lemma fillLoopF_filter_neg (total fuel : Nat) (p : Recommendation → Bool) :
    ∀ sel iosQ andQ : List Recommendation,
      (∀ r ∈ iosQ, p r = false) → (∀ r ∈ andQ, p r = true) →
      ∃ n, (fillLoopF total fuel sel iosQ andQ).filter p =
        sel.filter p ++ andQ.take n := by
  induction fuel with
  | zero => intro sel iosQ andQ _ _; exact ⟨0, by simp [fillLoopF]⟩
  | succ fuel ih =>
      intro sel iosQ andQ hi ha
      by_cases hlt : sel.length < total
      · cases iosQ with
        | cons i iosRest =>
            have hpi : p i = false := hi i (by simp)
            by_cases hge : total ≤ (sel ++ [i]).length
            · refine ⟨0, ?_⟩
              simp only [fillLoopF, if_pos hlt, if_pos hge]
              simp [List.filter_append, List.filter_cons, hpi]
            · cases andQ with
              | cons a andRest =>
                  have hpa : p a = true := ha a (by simp)
                  obtain ⟨n, hn⟩ := ih ((sel ++ [i]) ++ [a]) iosRest andRest
                    (fun r hr => hi r (by simp [hr])) (fun r hr => ha r (by simp [hr]))
                  refine ⟨n + 1, ?_⟩
                  simp only [fillLoopF, if_pos hlt, if_neg hge]
                  rw [hn]
                  simp [List.filter_append, List.filter_cons, hpi, hpa, List.take_succ_cons]
              | nil =>
                  obtain ⟨n, hn⟩ := ih (sel ++ [i]) iosRest []
                    (fun r hr => hi r (by simp [hr])) (fun r hr => absurd hr (List.not_mem_nil r))
                  refine ⟨0, ?_⟩
                  simp only [fillLoopF, if_pos hlt, if_neg hge]
                  rw [hn]
                  simp [List.filter_append, List.filter_cons, hpi]
        | nil =>
            cases andQ with
            | cons a andRest =>
                have hpa : p a = true := ha a (by simp)
                obtain ⟨n, hn⟩ := ih (sel ++ [a]) [] andRest
                  (fun r hr => absurd hr (List.not_mem_nil r))
                  (fun r hr => ha r (by simp [hr]))
                refine ⟨n + 1, ?_⟩
                simp only [fillLoopF, if_pos hlt]
                rw [hn]
                simp [List.filter_append, List.filter_cons, hpa, List.take_succ_cons]
            | nil => exact ⟨0, by simp [fillLoopF, if_pos hlt]⟩
      · exact ⟨0, by simp [fillLoopF, if_neg hlt]⟩

/-! ### Selector-level helper lemmas -/

lemma pickByPlatform_selected (recs : List Recommendation) (t iB aB : Nat) :
    (pickByPlatform recs t iB aB).selected =
      fillLoop t
        ((iosQueueOf recs).take (iosTargetOf t iB aB) ++
          (androidQueueOf recs).take (androidTargetOf t iB aB))
        ((iosQueueOf recs).drop (iosTargetOf t iB aB))
        ((androidQueueOf recs).drop (androidTargetOf t iB aB)) := rfl

lemma pickByPlatform_iosCount (recs : List Recommendation) (t iB aB : Nat) :
    (pickByPlatform recs t iB aB).iosCount =
      ((iosQueueOf recs).take (iosTargetOf t iB aB)).length := rfl

lemma pickByPlatform_androidCount (recs : List Recommendation) (t iB aB : Nat) :
    (pickByPlatform recs t iB aB).androidCount =
      ((androidQueueOf recs).take (androidTargetOf t iB aB)).length := rfl

lemma mem_policyFirst {l : List Recommendation} {r : Recommendation}
    (h : r ∈ policyFirst l) : r ∈ l := by
  rcases List.mem_append.mp h with h2 | h2 <;> exact (List.mem_filter.mp h2).1

lemma mem_iosQueueOf {recs : List Recommendation} {r : Recommendation}
    (h : r ∈ iosQueueOf recs) : isIos r = true :=
  (List.mem_filter.mp (mem_policyFirst h)).2

lemma mem_androidQueueOf {recs : List Recommendation} {r : Recommendation}
    (h : r ∈ androidQueueOf recs) : isAndroid r = true :=
  (List.mem_filter.mp (mem_policyFirst h)).2

lemma isIos_false_of_isAndroid {r : Recommendation} (h : isAndroid r = true) :
    isIos r = false := by
  rcases r with ⟨p, m, w⟩
  cases p
  · exact absurd h (by simp [isAndroid])
  · rfl

lemma isAndroid_false_of_isIos {r : Recommendation} (h : isIos r = true) :
    isAndroid r = false := by
  rcases r with ⟨p, m, w⟩
  cases p
  · rfl
  · exact absurd h (by simp [isIos])

lemma iosQueueOf_length (recs : List Recommendation) :
    (iosQueueOf recs).length = (iosOf recs).length :=
  policyFirst_length _

lemma androidQueueOf_length (recs : List Recommendation) :
    (androidQueueOf recs).length = (androidOf recs).length :=
  policyFirst_length _

lemma targets_sum_eq {t : Nat} (h8 : 8 ≤ t) (h10 : t ≤ 10) :
    iosTargetOf t 4 4 + androidTargetOf t 4 4 = t := by
  unfold iosTargetOf androidTargetOf
  split_ifs <;> omega

/-! ### Claim theorems -/

/-- C1: in total mode (base split 4/4), for every recommendation list and
every requested total t in [8,10], the selector returns exactly
min(t, available) entries, where available is the length of the input list,
and never more than t entries; the top-up beyond the per-platform base
targets is performed by the alternating iOS-then-Android fill loop
(`fillLoop`), which stops at t or when both queues are empty. -/
theorem claim_C1 (recs : List Recommendation) (t : Nat) (h8 : 8 ≤ t) (h10 : t ≤ 10) :
    (pickByPlatform recs t 4 4).selected.length = min t recs.length ∧
    (pickByPlatform recs t 4 4).selected.length ≤ t := by
  have hsum := targets_sum_eq h8 h10
  have hQ : (iosQueueOf recs).length + (androidQueueOf recs).length = recs.length := by
    rw [iosQueueOf_length, androidQueueOf_length]
    exact iosOf_length_add_androidOf_length recs
  have hsel : ((iosQueueOf recs).take (iosTargetOf t 4 4) ++
      (androidQueueOf recs).take (androidTargetOf t 4 4)).length ≤ t := by
    simp only [List.length_append, List.length_take]
    omega
  have hlen := fillLoopF_length t
    (((iosQueueOf recs).drop (iosTargetOf t 4 4)).length +
      ((androidQueueOf recs).drop (androidTargetOf t 4 4)).length)
    ((iosQueueOf recs).take (iosTargetOf t 4 4) ++
      (androidQueueOf recs).take (androidTargetOf t 4 4))
    ((iosQueueOf recs).drop (iosTargetOf t 4 4))
    ((androidQueueOf recs).drop (androidTargetOf t 4 4)) le_rfl hsel
  rw [pickByPlatform_selected, fillLoop, hlen]
  simp only [List.length_append, List.length_take, List.length_drop]
  exact ⟨by omega, by omega⟩

/-- Witness for C1: the worked example's nine-entry list with t = 9. -/
theorem claim_C1_wit :
    8 ≤ 9 ∧ 9 ≤ 10 ∧
    (pickByPlatform (buildRecommendations exAnchors exModels) 9 4 4).selected.length =
      min 9 (buildRecommendations exAnchors exModels).length :=
  ⟨by decide, by decide,
    (claim_C1 (buildRecommendations exAnchors exModels) 9 (by decide) (by decide)).1⟩

/-- The eight entries the spec's worked example expects from
`select(total=8)`: four iOS then four Android. -/
def exSelected8 : List Recommendation :=
  [⟨Platform.ios, "iPhone 16", "Policy: latest standard iPhone"⟩,
   ⟨Platform.ios, "iPhone 15 Pro Max", "Policy: last year\x27s iPhone Pro/Pro Max"⟩,
   ⟨Platform.ios, "iPhone 13", "Popular iPhone in US (~16.03%)"⟩,
   ⟨Platform.ios, "iPhone 15", "Popular iPhone in US (~10.2%)"⟩,
   ⟨Platform.android, "Galaxy S25", "Policy: latest standard Galaxy S"⟩,
   ⟨Platform.android, "Galaxy S24 Ultra", "Policy: last year\x27s Samsung Galaxy S Ultra"⟩,
   ⟨Platform.android, "Pixel 8", "Policy: previous-generation Google Pixel"⟩,
   ⟨Platform.android, "Pixel 9", "Broaden Android coverage (stock Android)"⟩]

/-- C2: whenever both platform pools can cover their computed targets, the
split is 4/4 for t=8, 5/4 for t=9 and 5/5 for t=10 (the extra slot beyond 8
goes to iOS first, the one beyond 9 to Android); and on the spec's worked
example `select(total=8)` returns exactly the four listed iOS entries
followed by the four listed Android entries. -/
theorem claim_C2 :
    (∀ (recs : List Recommendation) (t : Nat), 8 ≤ t → t ≤ 10 →
      iosTargetOf t 4 4 ≤ (iosOf recs).length →
      androidTargetOf t 4 4 ≤ (androidOf recs).length →
      ((pickByPlatform recs t 4 4).selected.filter isIos).length = iosTargetOf t 4 4 ∧
      ((pickByPlatform recs t 4 4).selected.filter isAndroid).length = androidTargetOf t 4 4 ∧
      iosTargetOf t 4 4 = (if 8 < t then 5 else 4) ∧
      androidTargetOf t 4 4 = (if 9 < t then 5 else 4)) ∧
    (pickByPlatform (buildRecommendations exAnchors exModels) 8 4 4).selected = exSelected8 := by
  constructor
  · intro recs t h8 h10 hio hand
    have hsum := targets_sum_eq h8 h10
    have hiQ : iosTargetOf t 4 4 ≤ (iosQueueOf recs).length := by
      rw [iosQueueOf_length]; exact hio
    have haQ : androidTargetOf t 4 4 ≤ (androidQueueOf recs).length := by
      rw [androidQueueOf_length]; exact hand
    have hselLen : ((iosQueueOf recs).take (iosTargetOf t 4 4) ++
        (androidQueueOf recs).take (androidTargetOf t 4 4)).length = t := by
      simp only [List.length_append, List.length_take]
      omega
    have hstop : (pickByPlatform recs t 4 4).selected =
        (iosQueueOf recs).take (iosTargetOf t 4 4) ++
          (androidQueueOf recs).take (androidTargetOf t 4 4) := by
      rw [pickByPlatform_selected, fillLoop]
      exact fillLoopF_noop _ _ _ _ _ (le_of_eq hselLen.symm)
    have hfiA : ((iosQueueOf recs).take (iosTargetOf t 4 4)).filter isIos =
        (iosQueueOf recs).take (iosTargetOf t 4 4) :=
      List.filter_eq_self.mpr (fun r hr => mem_iosQueueOf (List.mem_of_mem_take hr))
    have hfiB : ((androidQueueOf recs).take (androidTargetOf t 4 4)).filter isIos = [] :=
      List.filter_eq_nil_iff.mpr (fun r hr => by
        simp [isIos_false_of_isAndroid (mem_androidQueueOf (List.mem_of_mem_take hr))])
    have hfaA : ((iosQueueOf recs).take (iosTargetOf t 4 4)).filter isAndroid = [] :=
      List.filter_eq_nil_iff.mpr (fun r hr => by
        simp [isAndroid_false_of_isIos (mem_iosQueueOf (List.mem_of_mem_take hr))])
    have hfaB : ((androidQueueOf recs).take (androidTargetOf t 4 4)).filter isAndroid =
        (androidQueueOf recs).take (androidTargetOf t 4 4) :=
      List.filter_eq_self.mpr (fun r hr => mem_androidQueueOf (List.mem_of_mem_take hr))
    refine ⟨?_, ?_, ?_, ?_⟩
    · rw [hstop, List.filter_append, hfiA, hfiB]
      simp only [List.append_nil, List.length_take]
      omega
    · rw [hstop, List.filter_append, hfaA, hfaB]
      simp only [List.nil_append, List.length_take]
      omega
    · unfold iosTargetOf; split_ifs <;> omega
    · unfold androidTargetOf; split_ifs <;> omega
  · decide

/-- Witness for C2 at the spec's worked example with t = 8. -/
theorem claim_C2_wit :
    ((pickByPlatform (buildRecommendations exAnchors exModels) 8 4 4).selected.filter
      isIos).length = iosTargetOf 8 4 4 ∧
    ((pickByPlatform (buildRecommendations exAnchors exModels) 8 4 4).selected.filter
      isAndroid).length = androidTargetOf 8 4 4 := by
  have h := claim_C2.1 (buildRecommendations exAnchors exModels) 8 (by decide) (by decide)
    (by decide) (by decide)
  exact ⟨h.1, h.2.1⟩

lemma filter_isIos_iosTake (recs : List Recommendation) (k : Nat) :
    ((iosQueueOf recs).take k).filter isIos = (iosQueueOf recs).take k :=
  List.filter_eq_self.mpr (fun _ hr => mem_iosQueueOf (List.mem_of_mem_take hr))

lemma filter_isIos_androidTake (recs : List Recommendation) (k : Nat) :
    ((androidQueueOf recs).take k).filter isIos = [] :=
  List.filter_eq_nil_iff.mpr (fun _ hr => by
    simp [isIos_false_of_isAndroid (mem_androidQueueOf (List.mem_of_mem_take hr))])

lemma filter_isAndroid_iosTake (recs : List Recommendation) (k : Nat) :
    ((iosQueueOf recs).take k).filter isAndroid = [] :=
  List.filter_eq_nil_iff.mpr (fun _ hr => by
    simp [isAndroid_false_of_isIos (mem_iosQueueOf (List.mem_of_mem_take hr))])

lemma filter_isAndroid_androidTake (recs : List Recommendation) (k : Nat) :
    ((androidQueueOf recs).take k).filter isAndroid = (androidQueueOf recs).take k :=
  List.filter_eq_self.mpr (fun _ hr => mem_androidQueueOf (List.mem_of_mem_take hr))

lemma pickByPlatform_filter_isIos (recs : List Recommendation) (t iB aB : Nat) :
    ∃ n, (pickByPlatform recs t iB aB).selected.filter isIos =
      (iosQueueOf recs).take n := by
  have hIos : ∀ r ∈ (iosQueueOf recs).drop (iosTargetOf t iB aB), isIos r = true :=
    fun r hr => mem_iosQueueOf (List.mem_of_mem_drop hr)
  have hAnd : ∀ r ∈ (androidQueueOf recs).drop (androidTargetOf t iB aB), isIos r = false :=
    fun r hr => isIos_false_of_isAndroid (mem_androidQueueOf (List.mem_of_mem_drop hr))
  obtain ⟨n, hn⟩ := fillLoopF_filter_pos t
    (((iosQueueOf recs).drop (iosTargetOf t iB aB)).length +
      ((androidQueueOf recs).drop (androidTargetOf t iB aB)).length) isIos
    ((iosQueueOf recs).take (iosTargetOf t iB aB) ++
      (androidQueueOf recs).take (androidTargetOf t iB aB))
    ((iosQueueOf recs).drop (iosTargetOf t iB aB))
    ((androidQueueOf recs).drop (androidTargetOf t iB aB)) hIos hAnd
  refine ⟨iosTargetOf t iB aB + n, ?_⟩
  rw [pickByPlatform_selected, fillLoop, hn, List.take_add, List.filter_append,
    filter_isIos_iosTake, filter_isIos_androidTake, List.append_nil]

lemma pickByPlatform_filter_isAndroid (recs : List Recommendation) (t iB aB : Nat) :
    ∃ n, (pickByPlatform recs t iB aB).selected.filter isAndroid =
      (androidQueueOf recs).take n := by
  have hIos : ∀ r ∈ (iosQueueOf recs).drop (iosTargetOf t iB aB), isAndroid r = false :=
    fun r hr => isAndroid_false_of_isIos (mem_iosQueueOf (List.mem_of_mem_drop hr))
  have hAnd : ∀ r ∈ (androidQueueOf recs).drop (androidTargetOf t iB aB), isAndroid r = true :=
    fun r hr => mem_androidQueueOf (List.mem_of_mem_drop hr)
  obtain ⟨n, hn⟩ := fillLoopF_filter_neg t
    (((iosQueueOf recs).drop (iosTargetOf t iB aB)).length +
      ((androidQueueOf recs).drop (androidTargetOf t iB aB)).length) isAndroid
    ((iosQueueOf recs).take (iosTargetOf t iB aB) ++
      (androidQueueOf recs).take (androidTargetOf t iB aB))
    ((iosQueueOf recs).drop (iosTargetOf t iB aB))
    ((androidQueueOf recs).drop (androidTargetOf t iB aB)) hIos hAnd
  refine ⟨androidTargetOf t iB aB + n, ?_⟩
  rw [pickByPlatform_selected, fillLoop, hn, List.take_add, List.filter_append,
    filter_isAndroid_iosTake, filter_isAndroid_androidTake, List.nil_append]

lemma pairwise_of_mem_imp {R : Recommendation → Recommendation → Prop} :
    ∀ l : List Recommendation, (∀ r ∈ l, ∀ s ∈ l, R r s) → l.Pairwise R := by
  intro l
  induction l with
  | nil => intro _; exact List.Pairwise.nil
  | cons a l ih =>
      intro h
      exact List.Pairwise.cons (fun b hb => h a (by simp) b (by simp [hb]))
        (ih fun r hr s hs => h r (by simp [hr]) s (by simp [hs]))

lemma pairwise_policyFirst (l : List Recommendation) :
    (policyFirst l).Pairwise (fun r s => isPolicy s = true → isPolicy r = true) := by
  rw [policyFirst, List.pairwise_append]
  refine ⟨?_, ?_, ?_⟩
  · exact pairwise_of_mem_imp _ (fun r hr s _ => fun _ => (List.mem_filter.mp hr).2)
  · refine pairwise_of_mem_imp _ (fun _ _ s hs => fun hps => ?_)
    have := (List.mem_filter.mp hs).2
    simp [hps] at this
  · exact fun r hr s _ => fun _ => (List.mem_filter.mp hr).2

lemma take_policyFirst_filter_pol (l : List Recommendation) (k : Nat) :
    ((policyFirst l).take k).filter (fun r => isPolicy r) =
      (l.filter (fun r => isPolicy r)).take k := by
  rw [policyFirst, List.take_append_eq_append_take, List.filter_append]
  have h1 : (((l.filter fun r => isPolicy r)).take k).filter (fun r => isPolicy r) =
      (l.filter fun r => isPolicy r).take k :=
    List.filter_eq_self.mpr
      (fun r hr => (List.mem_filter.mp (List.mem_of_mem_take hr)).2)
  have h2 : (((l.filter fun r => !isPolicy r)).take
      (k - (l.filter fun r => isPolicy r).length)).filter (fun r => isPolicy r) = [] :=
    List.filter_eq_nil_iff.mpr (fun r hr => by
      have hmem := (List.mem_filter.mp (List.mem_of_mem_take hr)).2
      simp only [Bool.not_eq_true'] at hmem
      simp [hmem])
  rw [h1, h2, List.append_nil]

lemma take_policyFirst_filter_not (l : List Recommendation) (k : Nat) :
    ((policyFirst l).take k).filter (fun r => !isPolicy r) =
      (l.filter (fun r => !isPolicy r)).take
        (k - (l.filter (fun r => isPolicy r)).length) := by
  rw [policyFirst, List.take_append_eq_append_take, List.filter_append]
  have h1 : (((l.filter fun r => isPolicy r)).take k).filter (fun r => !isPolicy r) = [] :=
    List.filter_eq_nil_iff.mpr (fun r hr => by
      have hmem := (List.mem_filter.mp (List.mem_of_mem_take hr)).2
      simp [hmem])
  have h2 : (((l.filter fun r => !isPolicy r)).take
      (k - (l.filter fun r => isPolicy r).length)).filter (fun r => !isPolicy r) =
      (l.filter fun r => !isPolicy r).take
        (k - (l.filter fun r => isPolicy r).length) :=
    List.filter_eq_self.mpr
      (fun r hr => (List.mem_filter.mp (List.mem_of_mem_take hr)).2)
  rw [h1, h2, List.nil_append]

/-- The spec's policy test, as worded: `why` begins with "Policy"
(case-sensitive). The source's `isPolicy` lowercases first. -/
def specPolicyTag (r : Recommendation) : Bool :=
  jsStartsWith r.why "Policy"

/-- A two-entry iOS pool on which the code's case-insensitive policy test
disagrees with the claim's case-sensitive one. -/
def cexRecs : List Recommendation :=
  [⟨Platform.ios, "A", "x"⟩, ⟨Platform.ios, "B", "policy z"⟩]

/-- C3 counterexample: on `cexRecs`, neither entry's `why` begins with
"Policy" (capital P), so by the claim both belong to the data-derived group
and should keep their input order; but the code's case-insensitive
`isPolicy` moves the entry whose `why` is "policy z" to the front, so the
selected entries of the iOS platform restricted to the claim's non-policy
group are not an order-preserving subsequence of the input list. -/
theorem claim_C3_cex :
    ¬ (((pickByPlatform cexRecs 8 4 4).selected.filter
        (fun r => isIos r && !specPolicyTag r)).Sublist cexRecs) := by
  decide

/-- C3 (amended): with "policy-derived" read as the source reads it — `why`
begins with "policy" case-insensitively (`isPolicy`) — the selected entries
of each platform form a prefix (`take n`) of that platform's policy-first
queue; hence within each platform every policy entry precedes every
non-policy entry, and each of the two groups is an order-preserving
subsequence of the input list. -/
theorem claim_C3 (recs : List Recommendation) (t iB aB : Nat) :
    (∃ n, (pickByPlatform recs t iB aB).selected.filter isIos =
      (iosQueueOf recs).take n) ∧
    (∃ n, (pickByPlatform recs t iB aB).selected.filter isAndroid =
      (androidQueueOf recs).take n) ∧
    ((pickByPlatform recs t iB aB).selected.filter isIos).Pairwise
      (fun r s => isPolicy s = true → isPolicy r = true) ∧
    ((pickByPlatform recs t iB aB).selected.filter isAndroid).Pairwise
      (fun r s => isPolicy s = true → isPolicy r = true) ∧
    (((pickByPlatform recs t iB aB).selected.filter isIos).filter
      (fun r => isPolicy r)).Sublist recs ∧
    (((pickByPlatform recs t iB aB).selected.filter isIos).filter
      (fun r => !isPolicy r)).Sublist recs ∧
    (((pickByPlatform recs t iB aB).selected.filter isAndroid).filter
      (fun r => isPolicy r)).Sublist recs ∧
    (((pickByPlatform recs t iB aB).selected.filter isAndroid).filter
      (fun r => !isPolicy r)).Sublist recs := by
  obtain ⟨n₁, h₁⟩ := pickByPlatform_filter_isIos recs t iB aB
  obtain ⟨n₂, h₂⟩ := pickByPlatform_filter_isAndroid recs t iB aB
  have hsubI : (iosOf recs).Sublist recs := List.filter_sublist recs
  have hsubA : (androidOf recs).Sublist recs := List.filter_sublist recs
  refine ⟨⟨n₁, h₁⟩, ⟨n₂, h₂⟩, ?_, ?_, ?_, ?_, ?_, ?_⟩
  · rw [h₁]
    exact List.Pairwise.sublist (List.take_sublist n₁ _) (pairwise_policyFirst (iosOf recs))
  · rw [h₂]
    exact List.Pairwise.sublist (List.take_sublist n₂ _) (pairwise_policyFirst (androidOf recs))
  · rw [h₁, iosQueueOf, take_policyFirst_filter_pol]
    exact ((List.take_sublist _ _).trans (List.filter_sublist _)).trans hsubI
  · rw [h₁, iosQueueOf, take_policyFirst_filter_not]
    exact ((List.take_sublist _ _).trans (List.filter_sublist _)).trans hsubI
  · rw [h₂, androidQueueOf, take_policyFirst_filter_pol]
    exact ((List.take_sublist _ _).trans (List.filter_sublist _)).trans hsubA
  · rw [h₂, androidQueueOf, take_policyFirst_filter_not]
    exact ((List.take_sublist _ _).trans (List.filter_sublist _)).trans hsubA

/-- C4 counterexample: at the repository's own anchor set the head sequence
contains the `pixelCurrentGen` entry, whose `why` is
"Broaden Android coverage (stock Android)", so not every anchor-derived
head entry's `why` begins with "Policy: ". -/
theorem claim_C4_cex :
    ¬ (∀ r ∈ buildBase exAnchors, jsStartsWith r.why "Policy: " = true) := by
  decide

/-- C4 (amended): the five fixed anchor entries of the head sequence all
carry a `why` beginning with "Policy: ", while the optional
`pixelCurrentGen` entry — the tail of the head sequence, present exactly
when the slot is truthy — instead carries the fixed `why`
"Broaden Android coverage (stock Android)". -/
theorem claim_C4 (a : Anchors) :
    (((buildBase a).take 5).all (fun r => jsStartsWith r.why "Policy: ") = true) ∧
    (∀ r ∈ (buildBase a).drop 5,
      r.why = "Broaden Android coverage (stock Android)") := by
  constructor
  · rfl
  · intro r hr
    cases hopt : a.pixelCurrentGen with
    | none => simp [buildBase, hopt] at hr
    | some p =>
        by_cases hp : p = ""
        · simp [buildBase, hopt, hp] at hr
        · simp [buildBase, hopt, hp] at hr
          rw [hr]

/-- Witness for C4 at the repository's anchor set. -/
theorem claim_C4_wit :
    (((buildBase exAnchors).take 5).all
      (fun r => jsStartsWith r.why "Policy: ") = true) ∧
    (⟨Platform.android, "Pixel 9",
        "Broaden Android coverage (stock Android)"⟩ : Recommendation).why =
      "Broaden Android coverage (stock Android)" :=
  ⟨(claim_C4 exAnchors).1,
    (claim_C4 exAnchors).2
      ⟨Platform.android, "Pixel 9", "Broaden Android coverage (stock Android)"⟩
      (by decide)⟩

/-- The contents of the `seen` set after the popularity loop has processed
a list of records (membership-faithful to the JS `Set`). -/
def seenAfter : List String → List IPhoneModel → List String
  | seen, [] => seen
  | seen, m :: rest =>
      if m.model ∈ seen then seenAfter seen rest
      else seenAfter (m.model :: seen) rest

lemma addPopular_append (l₁ l₂ : List IPhoneModel) :
    ∀ base seen, addPopular base seen (l₁ ++ l₂) =
      addPopular (addPopular base seen l₁) (seenAfter seen l₁) l₂ := by
  induction l₁ with
  | nil => intro base seen; rfl
  | cons m rest ih =>
      intro base seen
      by_cases h : m.model ∈ seen
      · simp only [List.cons_append, addPopular, seenAfter, if_pos h]
        exact ih base seen
      · simp only [List.cons_append, addPopular, seenAfter, if_neg h]
        exact ih (base ++ [popularRec m]) (m.model :: seen)

lemma mem_seenAfter_mono (l : List IPhoneModel) :
    ∀ seen x, x ∈ seen → x ∈ seenAfter seen l := by
  induction l with
  | nil => intro seen x hx; exact hx
  | cons m rest ih =>
      intro seen x hx
      by_cases h : m.model ∈ seen
      · simp only [seenAfter, if_pos h]; exact ih seen x hx
      · simp only [seenAfter, if_neg h]
        exact ih (m.model :: seen) x (List.mem_cons_of_mem _ hx)

lemma addPopular_models_in_seen (l : List IPhoneModel) :
    ∀ base seen, (∀ r ∈ base, r.model ∈ seen) →
      ∀ r ∈ addPopular base seen l, r.model ∈ seenAfter seen l := by
  induction l with
  | nil => intro base seen hbase r hr; exact hbase r hr
  | cons m rest ih =>
      intro base seen hbase r hr
      by_cases h : m.model ∈ seen
      · simp only [addPopular, if_pos h] at hr
        simp only [seenAfter, if_pos h]
        exact ih base seen hbase r hr
      · simp only [addPopular, if_neg h] at hr
        simp only [seenAfter, if_neg h]
        refine ih (base ++ [popularRec m]) (m.model :: seen) ?_ r hr
        intro s hs
        rcases List.mem_append.mp hs with hs2 | hs2
        · exact List.mem_cons_of_mem _ (hbase s hs2)
        · rw [List.mem_singleton.mp hs2]
          exact List.mem_cons_self _ _

lemma addPopular_nodup (l : List IPhoneModel) :
    ∀ base seen, ((base.map (fun r => r.model)).Nodup) →
      (∀ r ∈ base, r.model ∈ seen) →
      ((addPopular base seen l).map (fun r => r.model)).Nodup := by
  induction l with
  | nil => intro base seen hnd _; exact hnd
  | cons m rest ih =>
      intro base seen hnd hbase
      by_cases h : m.model ∈ seen
      · simp only [addPopular, if_pos h]
        exact ih base seen hnd hbase
      · simp only [addPopular, if_neg h]
        refine ih (base ++ [popularRec m]) (m.model :: seen) ?_ ?_
        · rw [List.map_append]
          rw [List.nodup_append]
          refine ⟨hnd, List.nodup_singleton _, ?_⟩
          intro x hx hx2
          simp only [List.map_cons, List.map_nil, List.mem_singleton, popularRec] at hx2
          obtain ⟨r, hr, hrx⟩ := List.mem_map.mp hx
          exact h (hx2 ▸ hrx ▸ hbase r hr)
        · intro s hs
          rcases List.mem_append.mp hs with hs2 | hs2
          · exact List.mem_cons_of_mem _ (hbase s hs2)
          · rw [List.mem_singleton.mp hs2]
            exact List.mem_cons_self _ _

/-- An anchor set whose two "latest" slots name the same model. -/
def dupAnchors : Anchors :=
  { latestStandardIphone := "X",
    latestStandardGalaxy := "X",
    iphoneMaxPrevYear := "B",
    galaxyUltraPrevYear := "C",
    pixelPrevGen := "D",
    pixelCurrentGen := none,
    updatedAt := "" }

/-- C5 counterexample: the seen-set only guards the popularity loop, so an
anchor set with two identical slot values produces duplicate model names in
`build`'s output. -/
theorem claim_C5_cex :
    ¬ (((buildRecommendations dupAnchors []).map (fun r => r.model)).Nodup) := by
  decide

/-- C5 (amended): provided the anchor-derived head entries already have
pairwise-distinct model names, no two entries of `build`'s output share a
model name; a popularity record whose model already occurs in the output
contributes nothing (first occurrence wins); and `build` is deterministic.
(Head-slot collisions themselves are copied into the output verbatim.) -/
theorem claim_C5 (a : Anchors) (l : List IPhoneModel) :
    (((buildBase a).map (fun r => r.model)).Nodup →
      ((buildRecommendations a l).map (fun r => r.model)).Nodup) ∧
    (∀ (m : IPhoneModel) (l₂ : List IPhoneModel),
      m.model ∈ (buildRecommendations a l).map (fun r => r.model) →
      buildRecommendations a (l ++ m :: l₂) = buildRecommendations a (l ++ l₂)) ∧
    buildRecommendations a l = buildRecommendations a l := by
  refine ⟨?_, ?_, rfl⟩
  · intro hnd
    exact addPopular_nodup l (buildBase a) ((buildBase a).map (fun r => r.model)) hnd
      (fun r hr => List.mem_map_of_mem _ hr)
  · intro m l₂ hm
    have hmem : m.model ∈ seenAfter ((buildBase a).map (fun r => r.model)) l := by
      rw [buildRecommendations] at hm
      obtain ⟨r, hr, hrm⟩ := List.mem_map.mp hm
      exact hrm ▸ addPopular_models_in_seen l (buildBase a)
        ((buildBase a).map (fun r => r.model))
        (fun s hs => List.mem_map_of_mem (fun r => r.model) hs) r hr
    rw [buildRecommendations, buildRecommendations, addPopular_append, addPopular_append]
    simp only [addPopular, if_pos hmem]

/-- Witness for C5: the worked example is duplicate-free, and re-feeding a
record whose model ("iPhone 13") is already present changes nothing. -/
theorem claim_C5_wit :
    ((buildRecommendations exAnchors exModels).map (fun r => r.model)).Nodup ∧
    buildRecommendations exAnchors (exModels ++ ⟨"iPhone 13", "9.9"⟩ :: []) =
      buildRecommendations exAnchors (exModels ++ []) :=
  ⟨(claim_C5 exAnchors exModels).1 (by decide),
   (claim_C5 exAnchors exModels).2.1 ⟨"iPhone 13", "9.9"⟩ [] (by decide)⟩

/-- The spec's description of the data-derived tail of `build`: one iOS
entry per not-already-seen popularity record, in the input record order,
updating the seen set as it appends. -/
def specPopularTail : List String → List IPhoneModel → List Recommendation
  | _, [] => []
  | seen, m :: rest =>
      if m.model ∈ seen then specPopularTail seen rest
      else popularRec m :: specPopularTail (m.model :: seen) rest

lemma addPopular_eq_append (l : List IPhoneModel) :
    ∀ base seen, addPopular base seen l = base ++ specPopularTail seen l := by
  induction l with
  | nil => intro base seen; simp [addPopular, specPopularTail]
  | cons m rest ih =>
      intro base seen
      by_cases h : m.model ∈ seen
      · simp only [addPopular, specPopularTail, if_pos h]
        exact ih base seen
      · simp only [addPopular, specPopularTail, if_neg h]
        rw [ih (base ++ [popularRec m]) (m.model :: seen), List.append_assoc]
        rfl

/-- C6: `build` is the anchor-derived head followed by the spec's
data-derived tail (one iOS entry per not-yet-seen popularity record, in
input order, tagged "Popular iPhone in US (~<share>%)"); the head lists the
anchor slots in the fixed documented order, with the `pixelCurrentGen`
entry appended exactly when that slot is present and non-empty; and on the
spec's worked example `build` yields exactly the nine listed entries. -/
theorem claim_C6 :
    (∀ (a : Anchors) (l : List IPhoneModel),
      buildRecommendations a l =
        buildBase a ++ specPopularTail ((buildBase a).map (fun r => r.model)) l) ∧
    (∀ (a : Anchors) (p : String), a.pixelCurrentGen = some p → p ≠ "" →
      buildBase a =
        [⟨Platform.ios, a.latestStandardIphone, "Policy: latest standard iPhone"⟩,
         ⟨Platform.android, a.latestStandardGalaxy, "Policy: latest standard Galaxy S"⟩,
         ⟨Platform.ios, a.iphoneMaxPrevYear, "Policy: last year\x27s iPhone Pro/Pro Max"⟩,
         ⟨Platform.android, a.galaxyUltraPrevYear, "Policy: last year\x27s Samsung Galaxy S Ultra"⟩,
         ⟨Platform.android, a.pixelPrevGen, "Policy: previous-generation Google Pixel"⟩,
         ⟨Platform.android, p, "Broaden Android coverage (stock Android)"⟩]) ∧
    buildRecommendations exAnchors exModels = exBuilt := by
  refine ⟨?_, ?_, by decide⟩
  · intro a l
    exact addPopular_eq_append l _ _
  · intro a p hp hne
    simp [buildBase, hp, hne]

/-- Witness for C6 at the repository's anchor set and snapshot. -/
theorem claim_C6_wit :
    buildRecommendations exAnchors exModels =
      buildBase exAnchors ++
        specPopularTail ((buildBase exAnchors).map (fun r => r.model)) exModels ∧
    buildBase exAnchors =
      [⟨Platform.ios, "iPhone 16", "Policy: latest standard iPhone"⟩,
       ⟨Platform.android, "Galaxy S25", "Policy: latest standard Galaxy S"⟩,
       ⟨Platform.ios, "iPhone 15 Pro Max", "Policy: last year\x27s iPhone Pro/Pro Max"⟩,
       ⟨Platform.android, "Galaxy S24 Ultra", "Policy: last year\x27s Samsung Galaxy S Ultra"⟩,
       ⟨Platform.android, "Pixel 8", "Policy: previous-generation Google Pixel"⟩,
       ⟨Platform.android, "Pixel 9", "Broaden Android coverage (stock Android)"⟩] :=
  ⟨claim_C6.1 exAnchors exModels,
   claim_C6.2.1 exAnchors "Pixel 9" rfl (by decide)⟩

lemma targets_sum_le {t : Nat} (h8 : 8 ≤ t) :
    iosTargetOf t 4 4 + androidTargetOf t 4 4 ≤ t := by
  unfold iosTargetOf androidTargetOf
  split_ifs <;> omega

/-- A ten-entry pool containing only Android recommendations. -/
def andOnlyRecs : List Recommendation :=
  [⟨Platform.android, "G1", "Policy: a"⟩,
   ⟨Platform.android, "G2", "Policy: b"⟩,
   ⟨Platform.android, "G3", "Policy: c"⟩,
   ⟨Platform.android, "G4", "Policy: d"⟩,
   ⟨Platform.android, "G5", "d1"⟩,
   ⟨Platform.android, "G6", "d2"⟩,
   ⟨Platform.android, "G7", "d3"⟩,
   ⟨Platform.android, "G8", "d4"⟩,
   ⟨Platform.android, "G9", "d5"⟩,
   ⟨Platform.android, "G10", "d6"⟩]

/-- C7 counterexample: with an empty iOS pool and per-platform base targets
4/4, the selector's output contains 8 Android entries — twice the Android
target — because the fill loop borrows the iOS deficit from the Android
queue; the selector never refuses to cross platforms. -/
theorem claim_C7_cex :
    ¬ (((pickByPlatform andOnlyRecs 8 4 4).selected.filter isAndroid).length ≤
        androidTargetOf 8 4 4) := by
  decide

/-- C7 (amended): the repository has no separate per-platform calling mode
and no [1,10] clamping of per-platform counts; `pickByPlatform` takes
per-platform base targets as arguments (the page always passes 4/4), and —
contrary to the claim — it does perform cross-platform fill: when the whole
pool is Android and large enough, the output still reaches the requested
total, entirely from Android, even though the Android base target stays
strictly below that total. -/
theorem claim_C7 (recs : List Recommendation) (t : Nat)
    (hand : ∀ r ∈ recs, isAndroid r = true) (hlen : t ≤ recs.length) (h8 : 8 ≤ t) :
    (pickByPlatform recs t 4 4).selected.length = t ∧
    (∀ r ∈ (pickByPlatform recs t 4 4).selected, isAndroid r = true) ∧
    (pickByPlatform recs t 4 4).androidCount = androidTargetOf t 4 4 ∧
    androidTargetOf t 4 4 < t := by
  have hio : iosOf recs = [] :=
    List.filter_eq_nil_iff.mpr (fun r hr => by
      simp [isIos_false_of_isAndroid (hand r hr)])
  have hiq : iosQueueOf recs = [] := by rw [iosQueueOf, hio]; rfl
  have haoLen : (androidOf recs).length = recs.length := by
    have := iosOf_length_add_androidOf_length recs
    rw [hio] at this
    simpa using this
  have haqLen : (androidQueueOf recs).length = recs.length := by
    rw [androidQueueOf_length, haoLen]
  refine ⟨?_, ?_, ?_, ?_⟩
  · have hsum := targets_sum_le h8
    have hsel : ((iosQueueOf recs).take (iosTargetOf t 4 4) ++
        (androidQueueOf recs).take (androidTargetOf t 4 4)).length ≤ t := by
      simp only [List.length_append, List.length_take]
      omega
    have hlen2 := fillLoopF_length t
      (((iosQueueOf recs).drop (iosTargetOf t 4 4)).length +
        ((androidQueueOf recs).drop (androidTargetOf t 4 4)).length)
      ((iosQueueOf recs).take (iosTargetOf t 4 4) ++
        (androidQueueOf recs).take (androidTargetOf t 4 4))
      ((iosQueueOf recs).drop (iosTargetOf t 4 4))
      ((androidQueueOf recs).drop (androidTargetOf t 4 4)) le_rfl hsel
    rw [pickByPlatform_selected, fillLoop, hlen2]
    simp only [List.length_append, List.length_take, List.length_drop]
    omega
  · intro r hr
    rw [pickByPlatform_selected, fillLoop] at hr
    rcases fillLoopF_mem t _ _ _ _ r hr with h | h | h
    · rcases List.mem_append.mp h with h2 | h2
      · rw [hiq] at h2
        simp at h2
      · exact mem_androidQueueOf (List.mem_of_mem_take h2)
    · rw [hiq] at h
      simp at h
    · exact mem_androidQueueOf (List.mem_of_mem_drop h)
  · rw [pickByPlatform_androidCount]
    have : androidTargetOf t 4 4 < t := by
      unfold androidTargetOf; split_ifs <;> omega
    simp only [List.length_take]
    omega
  · unfold androidTargetOf; split_ifs <;> omega

/-- Witness for C7: the ten-entry all-Android pool with t = 8. -/
theorem claim_C7_wit :
    (pickByPlatform andOnlyRecs 8 4 4).selected.length = 8 ∧
    (pickByPlatform andOnlyRecs 8 4 4).androidCount = androidTargetOf 8 4 4 ∧
    androidTargetOf 8 4 4 < 8 := by
  have h := claim_C7 andOnlyRecs 8 (by decide) (by decide) (by decide)
  exact ⟨h.1, h.2.2.1, h.2.2.2⟩

/-- C8: `daysSince` is non-negative, returns 0 whenever the timestamp is
not in the past, is monotonically non-decreasing as the current time
advances, and equals the clamped floored quotient of the elapsed
milliseconds by one day. -/
theorem claim_C8 (now ts : Int) :
    0 ≤ daysSince now ts ∧
    (now ≤ ts → daysSince now ts = 0) ∧
    (∀ now2 : Int, now ≤ now2 → daysSince now ts ≤ daysSince now2 ts) ∧
    daysSince now ts = max 0 ((now - ts).fdiv 86400000) := by
  have h86 : (0:Int) ≤ 86400000 := by norm_num
  refine ⟨le_max_left 0 _, ?_, ?_, rfl⟩
  · intro h
    rw [daysSince, Int.fdiv_eq_ediv _ h86]
    have hq : (now - ts) / 86400000 ≤ 0 := by
      calc (now - ts) / 86400000 ≤ 0 / 86400000 :=
            Int.ediv_le_ediv (by norm_num) (by omega)
        _ = 0 := Int.zero_ediv _
    omega
  · intro now2 h2
    rw [daysSince, daysSince, Int.fdiv_eq_ediv _ h86, Int.fdiv_eq_ediv _ h86]
    have hq : (now - ts) / 86400000 ≤ (now2 - ts) / 86400000 :=
      Int.ediv_le_ediv (by norm_num) (by omega)
    omega

/-- Witness for C8: a future timestamp (ts = 10 at now = 5) yields 0, and
advancing the clock to 7 cannot decrease the result. -/
theorem claim_C8_wit :
    0 ≤ daysSince 5 10 ∧ daysSince 5 10 = 0 ∧ daysSince 5 10 ≤ daysSince 7 10 := by
  have h := claim_C8 5 10
  exact ⟨h.1, h.2.1 (by norm_num), h.2.2.1 7 (by norm_num)⟩

/-- C9: `readTotal` always lands in [8,10]; an absent or unparsable
parameter (a non-finite `Number`) yields the default 8, and a finite value
is floored and then clamped to [8,10]; the function is total, so a
malformed parameter is never rejected. -/
theorem claim_C9 :
    (∀ o : Option ℚ, 8 ≤ readTotal o ∧ readTotal o ≤ 10) ∧
    readTotal none = 8 ∧
    (∀ q : ℚ, readTotal (some q) = max 8 (min 10 ⌊q⌋)) := by
  refine ⟨?_, rfl, fun q => rfl⟩
  intro o
  cases o with
  | none => exact ⟨by norm_num [readTotal], by norm_num [readTotal]⟩
  | some q =>
      simp only [readTotal]
      omega

/-- A ten-entry pool containing only iOS recommendations. -/
def iosOnlyRecs : List Recommendation :=
  [⟨Platform.ios, "I1", "Policy: a"⟩,
   ⟨Platform.ios, "I2", "Policy: b"⟩,
   ⟨Platform.ios, "I3", "Policy: c"⟩,
   ⟨Platform.ios, "I4", "Policy: d"⟩,
   ⟨Platform.ios, "I5", "d1"⟩,
   ⟨Platform.ios, "I6", "d2"⟩,
   ⟨Platform.ios, "I7", "d3"⟩,
   ⟨Platform.ios, "I8", "d4"⟩,
   ⟨Platform.ios, "I9", "d5"⟩,
   ⟨Platform.ios, "I10", "d6"⟩]

/-- C10: `iosCount`/`androidCount` report exactly the two base selections
(the per-platform target capped by the queue length); the selected list is
those two base selections followed by whatever the fill loop appended, so
the two counts sum to at most the selected length — strictly less whenever
the fill loop added entries, as on the all-iOS and all-Android pools, where
the per-platform count also undercounts that platform's selected entries. -/
theorem claim_C10 :
    (∀ (recs : List Recommendation) (t iB aB : Nat),
      (pickByPlatform recs t iB aB).iosCount =
        min (iosTargetOf t iB aB) (iosQueueOf recs).length ∧
      (pickByPlatform recs t iB aB).androidCount =
        min (androidTargetOf t iB aB) (androidQueueOf recs).length ∧
      (∃ fill, (pickByPlatform recs t iB aB).selected =
        ((iosQueueOf recs).take (iosTargetOf t iB aB) ++
          (androidQueueOf recs).take (androidTargetOf t iB aB)) ++ fill) ∧
      (pickByPlatform recs t iB aB).iosCount +
          (pickByPlatform recs t iB aB).androidCount ≤
        (pickByPlatform recs t iB aB).selected.length) ∧
    ((pickByPlatform iosOnlyRecs 8 4 4).iosCount +
        (pickByPlatform iosOnlyRecs 8 4 4).androidCount <
      (pickByPlatform iosOnlyRecs 8 4 4).selected.length ∧
     (pickByPlatform iosOnlyRecs 8 4 4).iosCount <
      ((pickByPlatform iosOnlyRecs 8 4 4).selected.filter isIos).length ∧
     (pickByPlatform andOnlyRecs 8 4 4).androidCount <
      ((pickByPlatform andOnlyRecs 8 4 4).selected.filter isAndroid).length) := by
  constructor
  · intro recs t iB aB
    obtain ⟨fill, hfill⟩ := fillLoopF_extend t
      (((iosQueueOf recs).drop (iosTargetOf t iB aB)).length +
        ((androidQueueOf recs).drop (androidTargetOf t iB aB)).length)
      ((iosQueueOf recs).take (iosTargetOf t iB aB) ++
        (androidQueueOf recs).take (androidTargetOf t iB aB))
      ((iosQueueOf recs).drop (iosTargetOf t iB aB))
      ((androidQueueOf recs).drop (androidTargetOf t iB aB))
    refine ⟨?_, ?_, ⟨fill, ?_⟩, ?_⟩
    · rw [pickByPlatform_iosCount, List.length_take]
    · rw [pickByPlatform_androidCount, List.length_take]
    · rw [pickByPlatform_selected, fillLoop, hfill]
    · rw [pickByPlatform_iosCount, pickByPlatform_androidCount,
        pickByPlatform_selected, fillLoop, hfill]
      simp only [List.length_append]
      omega
  · exact ⟨by decide, by decide, by decide⟩
